import Mathlib

/-!
Verification of the client-side JSON sanitation and score-normalization
routines of the adaptive English-writing app.

The embedding translates, from the source:
  * the score-normalization block of `gradeEssay` (clamping, half-point
    rounding, total recomputation, and the conditional bonus distribution);
  * `cleanJsonResponse` (markdown-fence stripping, brace trimming, parse
    attempt, repair fallback);
  * `tryRepairTruncatedJson` (string closing, dangling key-value removal,
    trailing-comma removal, bracket-stack closing);
  * a JSON syntax checker standing for `JSON.parse` (the external runtime
    routine the code calls).

JavaScript numbers are modelled as `Option ℚ`: `some q` is a finite number,
`none` is NaN.  The arithmetic the code performs (±, min, max, `Math.round`
of doubled values, division by 2) is exact on the rationals it actually
produces, so ℚ is a faithful carrier; NaN propagation of `Math.min`,
`Math.max`, `Math.round`, `+` is modelled by `Option` absorption.
Text is modelled as `List Char`.
-/

/-! ## Rational arithmetic helpers (exact images of the JS numeric ops) -/

/-- `roundHalf(v) = Math.round(v * 2) / 2` on finite numbers.  `Math.round`
rounds halves toward +∞, which is Mathlib's `round`. -/
def roundHalfQ (v : ℚ) : ℚ := ((round (v * 2) : ℤ) : ℚ) / 2

/-- `clamp(v, lo, hi) = Math.max(lo, Math.min(hi, v))` on finite numbers. -/
def clampQ (v lo hi : ℚ) : ℚ := max lo (min hi v)

/-- A rational that is an integer multiple of 1/2. -/
def HalfInt (q : ℚ) : Prop := ∃ n : ℤ, q = (n : ℚ) / 2

/-! ## JS input values and `Number(v || 0)`

The sub-scores arrive from `JSON.parse` of model output, so a field is a
JSON value or absent.  The source coerces with `Number(x || 0)`: `x || 0`
yields `0` for the falsy values (absent, `null`, `false`, `0`, `""`, NaN)
and `x` itself otherwise; `Number` then converts.  `none` models NaN. -/

inductive JVal where
  | num (q : ℚ)
  | nan
  | str (s : List Char)
  | jbool (b : Bool)
  | jnull
  | missing
deriving DecidableEq

/-- JS whitespace (`String.prototype.trim`, `Number(string)` trimming, and
the regex class `\s`), restricted to the ASCII whitespace characters; the
Unicode space characters are not modelled. -/
def isWs (c : Char) : Bool :=
  c = ' ' ∨ c = '\t' ∨ c = '\n' ∨ c = '\r' ∨ c = '\x0b' ∨ c = '\x0c'

def digitVal (c : Char) : ℕ := c.toNat - 48

def isDigitC (c : Char) : Bool := '0' ≤ c ∧ c ≤ '9'

def digitsToNat (l : List Char) : ℕ := l.foldl (fun a c => 10 * a + digitVal c) 0

/-- Exponent suffix of a JS numeric string: `[+-]? digits`, applied to the
mantissa. -/
def expPart (m : ℚ) (l : List Char) : Option ℚ :=
  let p : ℤ × List Char :=
    match l with
    | '-' :: r => (-1, r)
    | '+' :: r => (1, r)
    | _ => (1, l)
  let ed := p.2.takeWhile isDigitC
  if ed.isEmpty ∨ ¬(p.2.dropWhile isDigitC).isEmpty then none
  else some (m * (10 : ℚ) ^ (p.1 * (digitsToNat ed : ℤ)))

/-- `Number(string)` for a non-empty string: trim, then parse an optional
sign, decimal digits, optional fraction, optional exponent.  A whitespace-only
string is 0; anything else that is not a decimal literal is NaN (`none`).
Simplification: the hex/octal/binary literal forms and `Infinity` are not
modelled (no claim exercises them). -/
def jsStrToNum (s : List Char) : Option ℚ :=
  let l := ((s.dropWhile isWs).reverse.dropWhile isWs).reverse
  if l.isEmpty then some 0
  else
    let p : ℚ × List Char :=
      match l with
      | '-' :: r => (-1, r)
      | '+' :: r => (1, r)
      | _ => (1, l)
    let ip := p.2.takeWhile isDigitC
    let r1 := p.2.dropWhile isDigitC
    let q : List Char × List Char :=
      match r1 with
      | '.' :: r => (r.takeWhile isDigitC, r.dropWhile isDigitC)
      | _ => ([], r1)
    if ip.isEmpty ∧ q.1.isEmpty then none
    else
      let mant : ℚ := p.1 * ((digitsToNat ip : ℚ) + (digitsToNat q.1 : ℚ) / (10 : ℚ) ^ q.1.length)
      match q.2 with
      | [] => some mant
      | 'e' :: r3 => expPart mant r3
      | 'E' :: r3 => expPart mant r3
      | _ => none

/-- `Number(v || 0)`.  Falsy values short-circuit to 0; `Number(true) = 1`;
a non-empty string is parsed, NaN (`none`) when it is not numeric. -/
def coerceScore : JVal → Option ℚ
  | .num q => some q
  | .nan => some 0
  | .str s => if s.isEmpty then some 0 else jsStrToNum s
  | .jbool b => some (if b then 1 else 0)
  | .jnull => some 0
  | .missing => some 0

/-! ## The score normalizer (`gradeEssay`, score-normalization block) -/

inductive Dim where
  | content
  | organization
  | proficiency
  | clarity
deriving DecidableEq

/-- `['content', 'organization', 'proficiency', 'clarity']`. -/
def dims : List Dim := [.content, .organization, .proficiency, .clarity]

/-- `max = { content: 4, organization: 3, proficiency: 5, clarity: 3 }`. -/
def maxOf : Dim → ℚ
  | .content => 4
  | .organization => 3
  | .proficiency => 5
  | .clarity => 3

structure Scores where
  content : ℚ
  organization : ℚ
  proficiency : ℚ
  clarity : ℚ
deriving DecidableEq

def Scores.get (s : Scores) : Dim → ℚ
  | .content => s.content
  | .organization => s.organization
  | .proficiency => s.proficiency
  | .clarity => s.clarity

def Scores.set (s : Scores) : Dim → ℚ → Scores
  | .content, v => { s with content := v }
  | .organization, v => { s with organization := v }
  | .proficiency, v => { s with proficiency := v }
  | .clarity, v => { s with clarity := v }

def sumScores (s : Scores) : ℚ := s.content + s.organization + s.proficiency + s.clarity

def roomOf (s : Scores) (d : Dim) : ℚ := maxOf d - s.get d

/-- The sort comparator of the bonus block, as the predicate
`comparator(a, b) ≤ 0` (a may be placed before b): strictly more headroom
first, ties by lower current score. -/
def prefR (s : Scores) (a b : Dim) : Prop :=
  roomOf s b < roomOf s a ∨ (roomOf s a = roomOf s b ∧ s.get a ≤ s.get b)

instance (s : Scores) (a b : Dim) : Decidable (prefR s a b) := by
  unfold prefR
  infer_instance

def cmpLe (s : Scores) (a b : Dim) : Bool := decide (prefR s a b)

/-- Stable insertion used to model `Array.prototype.sort` (stable per the
JS spec): an element is inserted before the first entry it may precede. -/
def insertBy (le : Dim → Dim → Bool) (x : Dim) : List Dim → List Dim
  | [] => [x]
  | y :: ys => if le x y then x :: y :: ys else y :: insertBy le x ys

def sortBy (le : Dim → Dim → Bool) : List Dim → List Dim
  | [] => []
  | x :: xs => insertBy le x (sortBy le xs)

structure BState where
  s : Scores
  bonus : ℚ
deriving DecidableEq

/-- One iteration of the distribution loop body at dimension `d`.  The
source `break`s when `bonus ≤ 0`; since every later iteration would then
also be skipped, the break is modelled as a skip. -/
def passStep (st : BState) (d : Dim) : BState :=
  if st.bonus ≤ 0 then st
  else
    let room := roundHalfQ (maxOf d - st.s.get d)
    let add := min (min room st.bonus) (1 / 2 : ℚ)
    if 0 < add then
      { s := st.s.set d (roundHalfQ (st.s.get d + add)),
        bonus := roundHalfQ (st.bonus - add) }
    else st

/-- `for (const d of order) { ... }`. -/
def runPass (st : BState) (order : List Dim) : BState := order.foldl passStep st

/-- The whole bonus block: sort once from the current scores, run the loop,
and run it a second time when bonus remains. -/
def applyBonus (s : Scores) : Scores :=
  let order := sortBy (cmpLe s) dims
  let st1 := runPass { s := s, bonus := 1 } order
  let st2 := if 0 < st1.bonus then runPass st1 order else st1
  st2.s

structure RawSubScores where
  content : JVal
  organization : JVal
  proficiency : JVal
  clarity : JVal

structure GradeResult where
  content : Option ℚ
  organization : Option ℚ
  proficiency : Option ℚ
  clarity : Option ℚ
  total : Option ℚ
deriving DecidableEq

/-- `roundHalf(clamp(Number(v || 0), 0, m))`, with NaN propagating: `clamp`
is `Math.max`/`Math.min`, which return NaN on NaN, and `roundHalf` keeps NaN. -/
def normOne (v : JVal) (m : ℚ) : Option ℚ :=
  (coerceScore v).map (fun q => roundHalfQ (clampQ q 0 m))

/-- JS `+`, NaN-absorbing. -/
def addN : Option ℚ → Option ℚ → Option ℚ
  | some a, some b => some (a + b)
  | _, _ => none

/-- The normalized scores and total before the conditional bonus
(`totalScore = roundHalf(c + o + p + cl)`). -/
def preNorm (raw : RawSubScores) : GradeResult :=
  let c := normOne raw.content 4
  let o := normOne raw.organization 3
  let p := normOne raw.proficiency 5
  let cl := normOne raw.clarity 3
  { content := c, organization := o, proficiency := p, clarity := cl,
    total := (addN (addN (addN c o) p) cl).map roundHalfQ }

/-- The remainder of the block: when every coerced score is a number the
source computes the rounded total and, under the bonus condition
(`totalScore ∈ [6, 14]` and `criticalCount ≤ 2`), redistributes up to one
point and recomputes the total; when some score is NaN the comparison with
6 is false, so the scores are returned as they are and the total is NaN. -/
def gradeCombine (c o p cl : Option ℚ) (k : ℕ) : GradeResult :=
  match c, o, p, cl with
  | some c, some o, some p, some cl =>
    let t := roundHalfQ (c + o + p + cl)
    if 6 ≤ t ∧ t ≤ 14 ∧ k ≤ 2 then
      let s := applyBonus ⟨c, o, p, cl⟩
      { content := some s.content, organization := some s.organization,
        proficiency := some s.proficiency, clarity := some s.clarity,
        total := some (roundHalfQ (sumScores s)) }
    else
      { content := some c, organization := some o, proficiency := some p,
        clarity := some cl, total := some t }
  | c, o, p, cl =>
      { content := c, organization := o, proficiency := p, clarity := cl, total := none }

/-- The full score-normalization step of `gradeEssay`: coerce, clamp, round
each sub-score, recompute the total, then conditionally apply the bonus.
`k` is `criticalCount` (`issueOverview.critical.length`, 0 when absent). -/
def gradeNormalize (raw : RawSubScores) (k : ℕ) : GradeResult :=
  gradeCombine (normOne raw.content 4) (normOne raw.organization 3)
    (normOne raw.proficiency 5) (normOne raw.clarity 3) k

/-! ## JSON syntax (the `JSON.parse` the source calls)

A recursive-descent reader of the JSON grammar (ECMA-404, as accepted by
`JSON.parse`): a fuel argument makes the mutual recursion structural; the
fuel passed at the top (`2 * length + 2`) exceeds the possible nesting
depth, every recursive step having consumed at least one character of the
two it is given budget for. -/

def isJsonWs (c : Char) : Bool := c = ' ' ∨ c = '\t' ∨ c = '\n' ∨ c = '\r'

inductive J where
  | jnull
  | jbool (b : Bool)
  | jnum (q : ℚ)
  | jstr (s : List Char)
  | jarr (xs : List J)
  | jobj (kvs : List (List Char × J))

def isHexDigit (c : Char) : Bool :=
  isDigitC c ∨ ('a' ≤ c ∧ c ≤ 'f') ∨ ('A' ≤ c ∧ c ≤ 'F')

def hexVal (c : Char) : ℕ :=
  if isDigitC c then c.toNat - 48
  else if 'a' ≤ c ∧ c ≤ 'f' then c.toNat - 87
  else c.toNat - 55

/-- A single-character string escape (`\"`, `\\`, `\/`, `\b`, `\f`, `\n`,
`\r`, `\t`). -/
def escChar : Char → Option Char
  | '"' => some '"'
  | '\\' => some '\\'
  | '/' => some '/'
  | 'b' => some '\x08'
  | 'f' => some '\x0c'
  | 'n' => some '\n'
  | 'r' => some '\r'
  | 't' => some '\t'
  | _ => none

/-- Body of a JSON string after the opening quote: returns the decoded
characters and the remainder after the closing quote.  A `\uXXXX` escape
becomes `Char.ofNat` of its value (a lone surrogate, which `JSON.parse`
accepts, is collapsed by `Char.ofNat`; no claim exercises one). -/
def parseStrBody : ℕ → List Char → Option (List Char × List Char)
  | 0, _ => none
  | _, [] => none
  | fuel + 1, c :: r =>
    if c = '"' then some ([], r)
    else if c = '\\' then
      match r with
      | 'u' :: h1 :: h2 :: h3 :: h4 :: r2 =>
        if isHexDigit h1 ∧ isHexDigit h2 ∧ isHexDigit h3 ∧ isHexDigit h4 then
          (parseStrBody fuel r2).map
            (fun p => (Char.ofNat (((hexVal h1 * 16 + hexVal h2) * 16 + hexVal h3) * 16 + hexVal h4) :: p.1, p.2))
        else none
      | e :: r2 =>
        match escChar e with
        | some ec => (parseStrBody fuel r2).map (fun p => (ec :: p.1, p.2))
        | none => none
      | [] => none
    else if c.toNat < 32 then none
    else (parseStrBody fuel r).map (fun p => (c :: p.1, p.2))

/-- Exponent suffix of a JSON number. -/
def jsonExp (m : ℚ) (l : List Char) : Option (ℚ × List Char) :=
  let sp : ℤ × List Char :=
    match l with
    | '-' :: r => (-1, r)
    | '+' :: r => (1, r)
    | _ => (1, l)
  let ds := sp.2.takeWhile isDigitC
  if ds.isEmpty then none
  else some (m * (10 : ℚ) ^ (sp.1 * (digitsToNat ds : ℤ)), sp.2.dropWhile isDigitC)

/-- A JSON number token: `-? (0 | [1-9][0-9]*) (. [0-9]+)? ([eE][+-]?[0-9]+)?`. -/
def parseNumTok (l : List Char) : Option (ℚ × List Char) :=
  let sp : ℚ × List Char :=
    match l with
    | '-' :: r => (-1, r)
    | _ => (1, l)
  match sp.2 with
  | [] => none
  | c :: r =>
    if ¬ isDigitC c then none
    else
      let ip : List Char × List Char :=
        if c = '0' then ([c], r) else (c :: r.takeWhile isDigitC, r.dropWhile isDigitC)
      let fp : Option (List Char × List Char) :=
        match ip.2 with
        | '.' :: r2 =>
          let ds := r2.takeWhile isDigitC
          if ds.isEmpty then none else some (ds, r2.dropWhile isDigitC)
        | _ => some ([], ip.2)
      match fp with
      | none => none
      | some (fds, r3) =>
        let mant : ℚ := sp.1 * ((digitsToNat ip.1 : ℚ) + (digitsToNat fds : ℚ) / (10 : ℚ) ^ fds.length)
        match r3 with
        | 'e' :: r4 => jsonExp mant r4
        | 'E' :: r4 => jsonExp mant r4
        | _ => some (mant, r3)

mutual

def parseVal : ℕ → List Char → Option (J × List Char)
  | 0, _ => none
  | fuel + 1, l =>
    let l1 := l.dropWhile isJsonWs
    match l1 with
    | 'n' :: 'u' :: 'l' :: 'l' :: r => some (.jnull, r)
    | 't' :: 'r' :: 'u' :: 'e' :: r => some (.jbool true, r)
    | 'f' :: 'a' :: 'l' :: 's' :: 'e' :: r => some (.jbool false, r)
    | '"' :: r => (parseStrBody (r.length + 1) r).map (fun p => (.jstr p.1, p.2))
    | '[' :: r =>
      (match r.dropWhile isJsonWs with
       | ']' :: r2 => some (.jarr [], r2)
       | _ => (parseElems fuel r).map (fun p => (.jarr p.1, p.2)))
    | '{' :: r =>
      (match r.dropWhile isJsonWs with
       | '}' :: r2 => some (.jobj [], r2)
       | _ => (parseMembers fuel r).map (fun p => (.jobj p.1, p.2)))
    | _ => (parseNumTok l1).map (fun p => (.jnum p.1, p.2))

def parseElems : ℕ → List Char → Option (List J × List Char)
  | 0, _ => none
  | fuel + 1, l =>
    match parseVal fuel l with
    | none => none
    | some (v, r) =>
      match r.dropWhile isJsonWs with
      | ',' :: r2 =>
        (match parseElems fuel r2 with
         | some (vs, r3) => some (v :: vs, r3)
         | none => none)
      | ']' :: r2 => some ([v], r2)
      | _ => none

def parseMembers : ℕ → List Char → Option (List (List Char × J) × List Char)
  | 0, _ => none
  | fuel + 1, l =>
    match l.dropWhile isJsonWs with
    | '"' :: r =>
      (match parseStrBody (r.length + 1) r with
       | none => none
       | some (key, r1) =>
         match r1.dropWhile isJsonWs with
         | ':' :: r3 =>
           (match parseVal fuel r3 with
            | none => none
            | some (v, r4) =>
              match r4.dropWhile isJsonWs with
              | ',' :: r6 =>
                (match parseMembers fuel r6 with
                 | some (kvs, r7) => some ((key, v) :: kvs, r7)
                 | none => none)
              | '}' :: r6 => some ([(key, v)], r6)
              | _ => none)
         | _ => none)
    | _ => none

end

/-- `JSON.parse` as a partial function: `.error` where it would throw. -/
def jsonParseE (l : List Char) : Except Unit J :=
  match parseVal (2 * l.length + 2) l with
  | some (v, r) => if (r.dropWhile isJsonWs).isEmpty then .ok v else .error ()
  | none => .error ()

/-- Whether `JSON.parse` succeeds on `l`. -/
def jsonValid (l : List Char) : Bool :=
  match jsonParseE l with
  | .ok _ => true
  | .error _ => false

/-- The value `JSON.parse` returns, `none` where it throws. -/
def jsonParse (l : List Char) : Option J :=
  match jsonParseE l with
  | .ok v => some v
  | .error _ => none

/-! ## `cleanJsonResponse` and `tryRepairTruncatedJson` -/

/-- `String.prototype.trim` (ASCII whitespace). -/
def jsTrim (l : List Char) : List Char := ((l.dropWhile isWs).reverse.dropWhile isWs).reverse

/-- Whether the list begins with three backticks. -/
def startsTicks (l : List Char) : Bool := l.take 3 = ['`', '`', '`']

/-- Whether three consecutive backticks occur anywhere in the list. -/
def hasTriple : List Char → Bool
  | a :: b :: c :: r => if a = '`' ∧ b = '`' ∧ c = '`' then true else hasTriple (b :: c :: r)
  | _ => false

/-- The suffix just after the first run of three backticks. -/
def afterFirstTicks : List Char → Option (List Char)
  | [] => none
  | c :: r => if startsTicks (c :: r) then some ((c :: r).drop 3) else afterFirstTicks r

/-- The lazy-group scan of the fence regex: the interior grows until the
closing three backticks, optionally preceded by one newline that the
greedy `\n?` excludes from the group. -/
def closeScan : List Char → Option (List Char)
  | [] => none
  | c :: r =>
    if startsTicks (c :: r) then some []
    else if c = '\n' ∧ startsTicks r then some []
    else (closeScan r).map (fun t => c :: t)

/-- The captured group of the first match of the fence regex
(triple backticks, optional `json` tag, greedy whitespace, lazy interior,
optional newline, closing triple backticks), `none` when the regex does not
match.  The `json` tag and whitespace contain no backtick, so the greedy
prefix never hides a closing fence and the leftmost backtick run is the
only opening position that matters. -/
def fenceInterior (l : List Char) : Option (List Char) :=
  match afterFirstTicks l with
  | none => none
  | some rest =>
    let afterTag := if rest.take 4 = ['j', 's', 'o', 'n'] then rest.drop 4 else rest
    closeScan (afterTag.dropWhile isWs)

/-- Steps 1-4 of `cleanJsonResponse`: trim, take a fenced block's interior,
drop a prefix before the first `[`/`{` when the text does not start with
one, drop a suffix after the last `]`/`}` when it does not end with one. -/
def sanitizePipeline (text : List Char) : List Char :=
  let cleaned := jsTrim text
  let cleaned1 :=
    match fenceInterior cleaned with
    | some inner => jsTrim inner
    | none => cleaned
  let cleaned2 :=
    if cleaned1.head? = some '{' ∨ cleaned1.head? = some '[' then cleaned1
    else
      match cleaned1.findIdx? (fun c => c = '[' ∨ c = '{') with
      | some i => cleaned1.drop i
      | none => cleaned1
  if cleaned2.getLast? = some '}' ∨ cleaned2.getLast? = some ']' then cleaned2
  else
    match cleaned2.reverse.findIdx? (fun c => c = '}' ∨ c = ']') with
    | some j => cleaned2.take (cleaned2.length - j)
    | none => cleaned2

/-- Step 1 scan of `tryRepairTruncatedJson`: toggle on every quote whose
immediately preceding character is not a backslash.  The source tracks only
the previous character, so a closing quote right after an escaped backslash
counts as escaped; modelled as written. -/
def quoteScan (l : List Char) : Bool :=
  (l.foldl (fun (st : Bool × Option Char) ch =>
    (if ch = '"' ∧ st.2 ≠ some '\\' then !st.1 else st.1, some ch)) (false, none)).1

/-- Whether a suffix matches the `$`-anchored pattern
`,\s*"[^"]*"\s*:\s*("[^"]*)?$` (a dangling key, with or without the start
of an unterminated string value). -/
def danglingMatch : List Char → Bool
  | ',' :: r =>
    (match r.dropWhile isWs with
     | '"' :: r2 =>
       (match r2.dropWhile (fun c => ¬ c = '"') with
        | '"' :: r4 =>
          (match r4.dropWhile isWs with
           | ':' :: r6 =>
             let r7 := r6.dropWhile isWs
             r7.isEmpty ||
               (match r7 with
                | '"' :: r8 => r8.all (fun c => ¬ c = '"')
                | _ => false)
           | _ => false)
        | _ => false)
     | _ => false)
  | _ => false

/-- Whether a suffix matches `,\s*$`. -/
def trailingCommaMatch : List Char → Bool
  | ',' :: r => r.all isWs
  | _ => false

/-- `String.replace` with a `$`-anchored pattern deletes the leftmost
matching suffix: the kept prefix, or `none` when no suffix matches.  The
empty suffix is never a match here because both patterns require a leading
comma. -/
def keepBeforeSuffix (p : List Char → Bool) : List Char → Option (List Char)
  | [] => none
  | c :: r => if p (c :: r) then some [] else (keepBeforeSuffix p r).map (fun t => c :: t)

def removeDangling (l : List Char) : List Char :=
  match keepBeforeSuffix danglingMatch l with
  | some pre => pre
  | none => l

def removeTrailingComma (l : List Char) : List Char :=
  match keepBeforeSuffix trailingCommaMatch l with
  | some pre => pre
  | none => l

/-- One character of the bracket-stack scan; the state is
`(stack, inStr, escape)` and the stack's head is its top. -/
def stackStep (st : List Char × Bool × Bool) (ch : Char) : List Char × Bool × Bool :=
  if st.2.2 then (st.1, st.2.1, false)
  else if ch = '\\' ∧ st.2.1 then (st.1, st.2.1, true)
  else if ch = '"' then (st.1, !st.2.1, false)
  else if st.2.1 then st
  else if ch = '{' then ('}' :: st.1, false, false)
  else if ch = '[' then (']' :: st.1, false, false)
  else if ch = '}' ∨ ch = ']' then
    (match st.1 with
     | t :: rest => if t = ch then (rest, false, false) else st
     | [] => st)
  else st

/-- `tryRepairTruncatedJson`: close an odd quote, delete a dangling
key-value suffix, delete a trailing comma, then append the expected closers
in last-opened-first-closed order (the stack's pop order). -/
def tryRepairTruncatedJson (l : List Char) : List Char :=
  let r1 := if quoteScan l then l ++ ['"'] else l
  let r2 := removeDangling r1
  let r3 := removeTrailingComma r2
  let stack := (r3.foldl stackStep ([], false, false)).1
  r3 ++ stack

/-- `cleanJsonResponse`: sanitize, return verbatim when `JSON.parse`
succeeds, otherwise return the repair attempt. -/
def cleanJsonResponse (text : List Char) : List Char :=
  let cleaned := sanitizePipeline text
  if jsonValid cleaned then cleaned else tryRepairTruncatedJson cleaned

/-- `cleanJsonResponse` with the `try { JSON.parse } catch` made explicit:
the parse is the only fallible step and both branches return. -/
def cleanJsonResponseE (text : List Char) : Except Unit (List Char) :=
  let cleaned := sanitizePipeline text
  match jsonParseE cleaned with
  | .ok _ => .ok cleaned
  | .error _ => .ok (tryRepairTruncatedJson cleaned)

/-! ## Well-formedness predicates used by the proofs -/

/-- The scores the normalizer feeds to the bonus block: half-integers
within `[0, max]` for their dimension. -/
structure SWf (s : Scores) : Prop where
  half : ∀ d, HalfInt (s.get d)
  lo : ∀ d, 0 ≤ s.get d
  hi : ∀ d, s.get d ≤ maxOf d

/-- Invariant of the bonus loop state. -/
structure BWf (st : BState) : Prop where
  swf : SWf st.s
  bhalf : HalfInt st.bonus
  bpos : 0 ≤ st.bonus

/-- The characters the repairer may append. -/
def isCloser (c : Char) : Bool := c = '"' ∨ c = '}' ∨ c = ']'

/-! ## Basic lemmas -/

theorem halfInt_roundHalfQ (q : ℚ) : HalfInt (roundHalfQ q) :=
  ⟨round (q * 2), rfl⟩

theorem roundHalfQ_eq_self {q : ℚ} (h : HalfInt q) : roundHalfQ q = q := by
  obtain ⟨n, rfl⟩ := h
  have h2 : (n : ℚ) / 2 * 2 = (n : ℚ) := by ring
  rw [roundHalfQ, h2, round_intCast]

theorem halfInt_add {a b : ℚ} (ha : HalfInt a) (hb : HalfInt b) : HalfInt (a + b) := by
  obtain ⟨m, rfl⟩ := ha
  obtain ⟨n, rfl⟩ := hb
  exact ⟨m + n, by push_cast; ring⟩

theorem halfInt_sub {a b : ℚ} (ha : HalfInt a) (hb : HalfInt b) : HalfInt (a - b) := by
  obtain ⟨m, rfl⟩ := ha
  obtain ⟨n, rfl⟩ := hb
  exact ⟨m - n, by push_cast; ring⟩

theorem halfInt_min {a b : ℚ} (ha : HalfInt a) (hb : HalfInt b) : HalfInt (min a b) := by
  rcases le_total a b with h | h
  · rwa [min_eq_left h]
  · rwa [min_eq_right h]

theorem halfInt_zero : HalfInt 0 := ⟨0, by norm_num⟩

theorem halfInt_one : HalfInt 1 := ⟨2, by norm_num⟩

theorem halfInt_half : HalfInt (1 / 2) := ⟨1, by norm_num⟩

/-- A positive half-integer is at least 1/2. -/
theorem halfInt_pos_ge {q : ℚ} (h : HalfInt q) (hpos : 0 < q) : 1 / 2 ≤ q := by
  obtain ⟨n, rfl⟩ := h
  have hn : (0 : ℚ) < (n : ℚ) := by linarith [hpos]
  have : (0 : ℤ) < n := by exact_mod_cast (by linarith : (0 : ℚ) < (n : ℚ))
  have h1 : (1 : ℤ) ≤ n := this
  have : (1 : ℚ) ≤ (n : ℚ) := by exact_mod_cast h1
  linarith

theorem roundHalfQ_mono {a b : ℚ} (h : a ≤ b) : roundHalfQ a ≤ roundHalfQ b := by
  have h2 : a * 2 ≤ b * 2 := by linarith
  have hr : round (a * 2) ≤ round (b * 2) := by
    rw [round_eq, round_eq]
    exact Int.floor_le_floor (by linarith)
  have : ((round (a * 2) : ℤ) : ℚ) ≤ ((round (b * 2) : ℤ) : ℚ) := by exact_mod_cast hr
  unfold roundHalfQ
  linarith

theorem roundHalfQ_nonneg {q : ℚ} (h : 0 ≤ q) : 0 ≤ roundHalfQ q := by
  have := roundHalfQ_mono h
  rwa [roundHalfQ_eq_self halfInt_zero] at this

theorem roundHalfQ_le {q m : ℚ} (hm : HalfInt m) (h : q ≤ m) : roundHalfQ q ≤ m := by
  have := roundHalfQ_mono h
  rwa [roundHalfQ_eq_self hm] at this

theorem clampQ_nonneg (v m : ℚ) : 0 ≤ clampQ v 0 m := le_max_left 0 _

theorem clampQ_le {v m : ℚ} (hm : 0 ≤ m) : clampQ v 0 m ≤ m :=
  max_le hm (min_le_left m v)

theorem Scores.get_set_same (s : Scores) (d : Dim) (v : ℚ) : (s.set d v).get d = v := by
  cases d <;> rfl

theorem Scores.get_set_other (s : Scores) {d e : Dim} (v : ℚ) (h : e ≠ d) :
    (s.set d v).get e = s.get e := by
  cases d <;> cases e <;> first | rfl | exact absurd rfl h

theorem sumScores_set (s : Scores) (d : Dim) (v : ℚ) :
    sumScores (s.set d v) = sumScores s + (v - s.get d) := by
  cases d <;> simp [Scores.set, Scores.get, sumScores] <;> ring

theorem sumScores_eq_sum_get (s : Scores) :
    sumScores s = s.get .content + s.get .organization + s.get .proficiency + s.get .clarity := rfl

theorem maxOf_halfInt (d : Dim) : HalfInt (maxOf d) := by
  cases d
  · exact ⟨8, by norm_num [maxOf]⟩
  · exact ⟨6, by norm_num [maxOf]⟩
  · exact ⟨10, by norm_num [maxOf]⟩
  · exact ⟨6, by norm_num [maxOf]⟩

theorem runPass_nil (st : BState) : runPass st [] = st := rfl

theorem runPass_cons (st : BState) (d : Dim) (l : List Dim) :
    runPass st (d :: l) = runPass (passStep st d) l := rfl

/-- `passStep` either leaves the state unchanged or performs the positive
`add = min(room, bonus, 0.5)` update. -/
theorem passStep_eq (st : BState) (d : Dim) :
    passStep st d = st ∨
      (0 < st.bonus ∧
        0 < min (min (roundHalfQ (maxOf d - st.s.get d)) st.bonus) (1 / 2 : ℚ) ∧
        passStep st d =
          { s := st.s.set d (roundHalfQ (st.s.get d +
              min (min (roundHalfQ (maxOf d - st.s.get d)) st.bonus) (1 / 2 : ℚ))),
            bonus := roundHalfQ (st.bonus -
              min (min (roundHalfQ (maxOf d - st.s.get d)) st.bonus) (1 / 2 : ℚ)) }) := by
  simp only [passStep]
  split_ifs with h1 h2
  · left; rfl
  · right; exact ⟨lt_of_not_le h1, h2, rfl⟩
  · left; rfl

theorem passStep_bwf {st : BState} (h : BWf st) (d : Dim) : BWf (passStep st d) := by
  rcases passStep_eq st d with heq | ⟨hb, hpos, heq⟩
  · rwa [heq]
  · set add := min (min (roundHalfQ (maxOf d - st.s.get d)) st.bonus) (1 / 2 : ℚ) with hadddef
    have hroom : roundHalfQ (maxOf d - st.s.get d) = maxOf d - st.s.get d :=
      roundHalfQ_eq_self (halfInt_sub (maxOf_halfInt d) (h.swf.half d))
    have haddhalf : HalfInt add :=
      halfInt_min (halfInt_min (halfInt_roundHalfQ _) h.bhalf) halfInt_half
    have hadd_room : add ≤ maxOf d - st.s.get d := by
      rw [← hroom]; exact le_trans (min_le_left _ _) (min_le_left _ _)
    have hadd_bonus : add ≤ st.bonus := le_trans (min_le_left _ _) (min_le_right _ _)
    have hs_new : roundHalfQ (st.s.get d + add) = st.s.get d + add :=
      roundHalfQ_eq_self (halfInt_add (h.swf.half d) haddhalf)
    have hb_new : roundHalfQ (st.bonus - add) = st.bonus - add :=
      roundHalfQ_eq_self (halfInt_sub h.bhalf haddhalf)
    rw [heq]
    refine ⟨⟨fun e => ?_, fun e => ?_, fun e => ?_⟩, ?_, ?_⟩
    · by_cases he : e = d
      · subst he
        simpa [Scores.get_set_same] using halfInt_roundHalfQ (st.s.get e + add)
      · simpa [Scores.get_set_other _ _ he] using h.swf.half e
    · by_cases he : e = d
      · subst he
        have := h.swf.lo e
        simp only [Scores.get_set_same, hs_new]
        linarith
      · simpa [Scores.get_set_other _ _ he] using h.swf.lo e
    · by_cases he : e = d
      · subst he
        simp only [Scores.get_set_same, hs_new]
        linarith
      · simpa [Scores.get_set_other _ _ he] using h.swf.hi e
    · simpa [hb_new] using halfInt_sub h.bhalf haddhalf
    · simp only [hb_new]
      linarith

theorem passStep_sum {st : BState} (h : BWf st) (d : Dim) :
    sumScores (passStep st d).s + (passStep st d).bonus = sumScores st.s + st.bonus := by
  rcases passStep_eq st d with heq | ⟨hb, hpos, heq⟩
  · rw [heq]
  · set add := min (min (roundHalfQ (maxOf d - st.s.get d)) st.bonus) (1 / 2 : ℚ) with hadddef
    have haddhalf : HalfInt add :=
      halfInt_min (halfInt_min (halfInt_roundHalfQ _) h.bhalf) halfInt_half
    have hs_new : roundHalfQ (st.s.get d + add) = st.s.get d + add :=
      roundHalfQ_eq_self (halfInt_add (h.swf.half d) haddhalf)
    have hb_new : roundHalfQ (st.bonus - add) = st.bonus - add :=
      roundHalfQ_eq_self (halfInt_sub h.bhalf haddhalf)
    rw [heq]
    simp only [sumScores_set, hs_new, hb_new]
    ring

theorem passStep_bonus_le {st : BState} (h : BWf st) (d : Dim) :
    (passStep st d).bonus ≤ st.bonus := by
  rcases passStep_eq st d with heq | ⟨hb, hpos, heq⟩
  · rw [heq]
  · set add := min (min (roundHalfQ (maxOf d - st.s.get d)) st.bonus) (1 / 2 : ℚ) with hadddef
    have haddhalf : HalfInt add :=
      halfInt_min (halfInt_min (halfInt_roundHalfQ _) h.bhalf) halfInt_half
    have hb_new : roundHalfQ (st.bonus - add) = st.bonus - add :=
      roundHalfQ_eq_self (halfInt_sub h.bhalf haddhalf)
    rw [heq]
    simp only [hb_new]
    linarith

theorem passStep_get_other {st : BState} (d : Dim) {e : Dim} (h : e ≠ d) :
    (passStep st d).s.get e = st.s.get e := by
  rcases passStep_eq st d with heq | ⟨hb, hpos, heq⟩
  · rw [heq]
  · rw [heq]
    exact Scores.get_set_other _ _ h

theorem passStep_get_ge {st : BState} (h : BWf st) (d : Dim) :
    st.s.get d ≤ (passStep st d).s.get d := by
  rcases passStep_eq st d with heq | ⟨hb, hpos, heq⟩
  · rw [heq]
  · set add := min (min (roundHalfQ (maxOf d - st.s.get d)) st.bonus) (1 / 2 : ℚ) with hadddef
    have haddhalf : HalfInt add :=
      halfInt_min (halfInt_min (halfInt_roundHalfQ _) h.bhalf) halfInt_half
    have hs_new : roundHalfQ (st.s.get d + add) = st.s.get d + add :=
      roundHalfQ_eq_self (halfInt_add (h.swf.half d) haddhalf)
    rw [heq]
    simp only [Scores.get_set_same, hs_new]
    linarith

theorem passStep_get_le {st : BState} (h : BWf st) (d : Dim) :
    (passStep st d).s.get d ≤ st.s.get d + 1 / 2 := by
  rcases passStep_eq st d with heq | ⟨hb, hpos, heq⟩
  · rw [heq]; linarith
  · set add := min (min (roundHalfQ (maxOf d - st.s.get d)) st.bonus) (1 / 2 : ℚ) with hadddef
    have haddhalf : HalfInt add :=
      halfInt_min (halfInt_min (halfInt_roundHalfQ _) h.bhalf) halfInt_half
    have hadd_half : add ≤ 1 / 2 := min_le_right _ _
    have hs_new : roundHalfQ (st.s.get d + add) = st.s.get d + add :=
      roundHalfQ_eq_self (halfInt_add (h.swf.half d) haddhalf)
    rw [heq]
    simp only [Scores.get_set_same, hs_new]
    linarith

/-- A step that changes anything strictly lowers the bonus. -/
theorem passStep_change_bonus_lt {st : BState} (h : BWf st) (d : Dim)
    (hne : passStep st d ≠ st) : (passStep st d).bonus < st.bonus := by
  rcases passStep_eq st d with heq | ⟨hb, hpos, heq⟩
  · exact absurd heq hne
  · set add := min (min (roundHalfQ (maxOf d - st.s.get d)) st.bonus) (1 / 2 : ℚ) with hadddef
    have haddhalf : HalfInt add :=
      halfInt_min (halfInt_min (halfInt_roundHalfQ _) h.bhalf) halfInt_half
    have hb_new : roundHalfQ (st.bonus - add) = st.bonus - add :=
      roundHalfQ_eq_self (halfInt_sub h.bhalf haddhalf)
    rw [heq]
    simp only [hb_new]
    linarith

/-- A fixed step with positive bonus means the dimension has no headroom. -/
theorem passStep_fix_maxed {st : BState} (h : BWf st) (d : Dim)
    (hb : 0 < st.bonus) (hfix : passStep st d = st) : maxOf d ≤ st.s.get d := by
  have hroom : roundHalfQ (maxOf d - st.s.get d) = maxOf d - st.s.get d :=
    roundHalfQ_eq_self (halfInt_sub (maxOf_halfInt d) (h.swf.half d))
  by_contra hlt
  push_neg at hlt
  have hpos : 0 < min (min (roundHalfQ (maxOf d - st.s.get d)) st.bonus) (1 / 2 : ℚ) :=
    lt_min (lt_min (by rw [hroom]; linarith) hb) (by norm_num)
  have heq : passStep st d =
      { s := st.s.set d (roundHalfQ (st.s.get d +
          min (min (roundHalfQ (maxOf d - st.s.get d)) st.bonus) (1 / 2 : ℚ))),
        bonus := roundHalfQ (st.bonus -
          min (min (roundHalfQ (maxOf d - st.s.get d)) st.bonus) (1 / 2 : ℚ)) } := by
    simp only [passStep]
    rw [if_neg (not_le.mpr hb), if_pos hpos]
  have hbeq := congrArg BState.bonus (heq.symm.trans hfix)
  have haddhalf : HalfInt (min (min (roundHalfQ (maxOf d - st.s.get d)) st.bonus) (1 / 2 : ℚ)) :=
    halfInt_min (halfInt_min (halfInt_roundHalfQ _) h.bhalf) halfInt_half
  have hb_new : roundHalfQ (st.bonus -
      min (min (roundHalfQ (maxOf d - st.s.get d)) st.bonus) (1 / 2 : ℚ)) =
      st.bonus - min (min (roundHalfQ (maxOf d - st.s.get d)) st.bonus) (1 / 2 : ℚ) :=
    roundHalfQ_eq_self (halfInt_sub h.bhalf haddhalf)
  simp only [hb_new] at hbeq
  linarith

theorem runPass_bwf {st : BState} (h : BWf st) (l : List Dim) : BWf (runPass st l) := by
  induction l generalizing st with
  | nil => exact h
  | cons e l ih => exact ih (passStep_bwf h e)

theorem runPass_sum {st : BState} (h : BWf st) (l : List Dim) :
    sumScores (runPass st l).s + (runPass st l).bonus = sumScores st.s + st.bonus := by
  induction l generalizing st with
  | nil => rfl
  | cons e l ih =>
    rw [runPass_cons]
    rw [ih (passStep_bwf h e), passStep_sum h e]

theorem runPass_bonus_le {st : BState} (h : BWf st) (l : List Dim) :
    (runPass st l).bonus ≤ st.bonus := by
  induction l generalizing st with
  | nil => exact le_refl _
  | cons e l ih =>
    rw [runPass_cons]
    exact le_trans (ih (passStep_bwf h e)) (passStep_bonus_le h e)

theorem runPass_get_not_mem {st : BState} {l : List Dim} {d : Dim} (hd : d ∉ l) :
    (runPass st l).s.get d = st.s.get d := by
  induction l generalizing st with
  | nil => rfl
  | cons e l ih =>
    rw [runPass_cons]
    have hde : d ≠ e := fun hc => hd (hc ▸ List.mem_cons_self e l)
    rw [ih (fun hc => hd (List.mem_cons_of_mem e hc)), passStep_get_other e hde]

theorem runPass_get_ge {st : BState} (h : BWf st) (l : List Dim) (d : Dim) :
    st.s.get d ≤ (runPass st l).s.get d := by
  induction l generalizing st with
  | nil => exact le_refl _
  | cons e l ih =>
    rw [runPass_cons]
    refine le_trans ?_ (ih (passStep_bwf h e))
    by_cases hde : d = e
    · subst hde; exact passStep_get_ge h d
    · rw [passStep_get_other e hde]

theorem runPass_get_le {st : BState} (h : BWf st) {l : List Dim} (hl : l.Nodup) (d : Dim) :
    (runPass st l).s.get d ≤ st.s.get d + 1 / 2 := by
  induction l generalizing st with
  | nil =>
    rw [runPass_nil]
    linarith
  | cons e l ih =>
    rw [runPass_cons]
    rcases List.nodup_cons.mp hl with ⟨he, hl2⟩
    by_cases hde : d = e
    · subst hde
      rw [runPass_get_not_mem he]
      exact passStep_get_le h d
    · have := ih (passStep_bwf h e) hl2
      rwa [passStep_get_other e hde] at this

/-- If a pass returns the initial bonus intact, it was the identity and
every listed dimension was already at (or beyond) its maximum. -/
theorem runPass_fix {st : BState} (h : BWf st) (hb : 0 < st.bonus) {l : List Dim}
    (heq : (runPass st l).bonus = st.bonus) :
    runPass st l = st ∧ ∀ d ∈ l, maxOf d ≤ st.s.get d := by
  induction l generalizing st with
  | nil => exact ⟨rfl, by simp⟩
  | cons e l ih =>
    rw [runPass_cons] at heq ⊢
    have hstep : passStep st e = st := by
      by_contra hne
      have h1 : (passStep st e).bonus < st.bonus := passStep_change_bonus_lt h e hne
      have h2 : (runPass (passStep st e) l).bonus ≤ (passStep st e).bonus :=
        runPass_bonus_le (passStep_bwf h e) l
      linarith [heq.le, heq.ge]
    rw [hstep] at heq ⊢
    rcases ih h hb heq with ⟨hid, hmax⟩
    refine ⟨hid, fun d hd => ?_⟩
    rcases List.mem_cons.mp hd with rfl | hd2
    · exact passStep_fix_maxed h d hb hstep
    · exact hmax d hd2

/-- A state every step fixes is fixed by the whole pass. -/
theorem runPass_fixed_point {st : BState} (hstep : ∀ d, passStep st d = st) (l : List Dim) :
    runPass st l = st := by
  induction l with
  | nil => rfl
  | cons e l ih => rw [runPass_cons, hstep e, ih]

theorem insertBy_perm (le : Dim → Dim → Bool) (x : Dim) (l : List Dim) :
    List.Perm (insertBy le x l) (x :: l) := by
  induction l with
  | nil => exact List.Perm.refl _
  | cons y ys ih =>
    by_cases h : le x y
    · simp only [insertBy, if_pos h]
      exact List.Perm.refl _
    · simp only [insertBy, if_neg h]
      exact (ih.cons y).trans (List.Perm.swap x y ys)

theorem sortBy_perm (le : Dim → Dim → Bool) (l : List Dim) :
    List.Perm (sortBy le l) l := by
  induction l with
  | nil => exact List.Perm.refl _
  | cons x xs ih => exact (insertBy_perm le x (sortBy le xs)).trans (ih.cons x)

theorem mem_insertBy (le : Dim → Dim → Bool) (x a : Dim) (l : List Dim) :
    a ∈ insertBy le x l ↔ a = x ∨ a ∈ l := by
  rw [(insertBy_perm le x l).mem_iff, List.mem_cons]

theorem insertBy_pairwise {le : Dim → Dim → Bool}
    (htot : ∀ a b, le a b = true ∨ le b a = true)
    (htr : ∀ a b c, le a b = true → le b c = true → le a c = true)
    (x : Dim) {l : List Dim} (hl : List.Pairwise (fun a b => le a b = true) l) :
    List.Pairwise (fun a b => le a b = true) (insertBy le x l) := by
  induction l with
  | nil => simp [insertBy]
  | cons y ys ih =>
    rcases List.pairwise_cons.mp hl with ⟨hy, hys⟩
    by_cases h : le x y
    · simp only [insertBy, if_pos h]
      refine List.Pairwise.cons (fun b hb => ?_) hl
      rcases List.mem_cons.mp hb with rfl | hb2
      · exact h
      · exact htr x y b h (hy b hb2)
    · simp only [insertBy, if_neg h]
      refine List.Pairwise.cons (fun b hb => ?_) (ih hys)
      rcases (mem_insertBy le x b ys).mp hb with rfl | hb2
      · rcases htot b y with h2 | h2
        · exact absurd h2 h
        · exact h2
      · exact hy b hb2

theorem sortBy_pairwise {le : Dim → Dim → Bool}
    (htot : ∀ a b, le a b = true ∨ le b a = true)
    (htr : ∀ a b c, le a b = true → le b c = true → le a c = true)
    (l : List Dim) :
    List.Pairwise (fun a b => le a b = true) (sortBy le l) := by
  induction l with
  | nil => simp [sortBy]
  | cons x xs ih => exact insertBy_pairwise htot htr x ih

theorem cmpLe_total (s : Scores) (a b : Dim) : cmpLe s a b = true ∨ cmpLe s b a = true := by
  simp only [cmpLe, decide_eq_true_eq]
  rcases lt_trichotomy (roomOf s a) (roomOf s b) with h | h | h
  · right; left; exact h
  · rcases le_total (s.get a) (s.get b) with h2 | h2
    · left; right; exact ⟨h, h2⟩
    · right; right; exact ⟨h.symm, h2⟩
  · left; left; exact h

theorem cmpLe_trans (s : Scores) (a b c : Dim)
    (h1 : cmpLe s a b = true) (h2 : cmpLe s b c = true) : cmpLe s a c = true := by
  simp only [cmpLe, decide_eq_true_eq] at h1 h2 ⊢
  rcases h1 with h1 | ⟨h1a, h1b⟩ <;> rcases h2 with h2 | ⟨h2a, h2b⟩
  · left; exact lt_trans h2 h1
  · left; rwa [← h2a]
  · left; rwa [h1a]
  · right; exact ⟨h1a.trans h2a, h1b.trans h2b⟩

theorem dims_nodup : dims.Nodup := by decide

theorem mem_dims (d : Dim) : d ∈ dims := by cases d <;> decide

theorem swf_bwf_init {s : Scores} (h : SWf s) : BWf { s := s, bonus := 1 } :=
  ⟨h, halfInt_one, by norm_num⟩

theorem order_nodup (s : Scores) : (sortBy (cmpLe s) dims).Nodup :=
  ((sortBy_perm (cmpLe s) dims).nodup_iff).mpr dims_nodup

theorem mem_order (s : Scores) (d : Dim) : d ∈ sortBy (cmpLe s) dims :=
  ((sortBy_perm (cmpLe s) dims).mem_iff).mpr (mem_dims d)

/-- The total the bonus block leaves behind: the undistributed remainder
`b2` is a half-integer in `[0, 1]`, and at most `1/2` whenever the
pre-bonus total leaves at least a point of headroom (total ≤ 14 < 15). -/
theorem applyBonus_total {s : Scores} (h : SWf s) :
    ∃ b2 : ℚ, 0 ≤ b2 ∧ b2 ≤ 1 ∧
      sumScores (applyBonus s) = sumScores s + 1 - b2 ∧
      (sumScores s ≤ 14 → b2 ≤ 1 / 2) := by
  have hb0 : BWf { s := s, bonus := 1 } := swf_bwf_init h
  have hbwf1 : BWf (runPass { s := s, bonus := 1 } (sortBy (cmpLe s) dims)) :=
    runPass_bwf hb0 _
  have hsum1 : sumScores (runPass { s := s, bonus := 1 } (sortBy (cmpLe s) dims)).s +
      (runPass { s := s, bonus := 1 } (sortBy (cmpLe s) dims)).bonus = sumScores s + 1 :=
    runPass_sum hb0 _
  have hble1 : (runPass { s := s, bonus := 1 } (sortBy (cmpLe s) dims)).bonus ≤ 1 :=
    runPass_bonus_le hb0 _
  have hb1half : (sumScores s ≤ 14) →
      (runPass { s := s, bonus := 1 } (sortBy (cmpLe s) dims)).bonus ≤ 1 / 2 := by
    intro hle
    by_cases h1 : (runPass { s := s, bonus := 1 } (sortBy (cmpLe s) dims)).bonus = 1
    · exfalso
      rcases runPass_fix hb0 (by norm_num) h1 with ⟨_, hmax⟩
      have hc := hmax .content (mem_order s .content)
      have ho := hmax .organization (mem_order s .organization)
      have hp := hmax .proficiency (mem_order s .proficiency)
      have hcl := hmax .clarity (mem_order s .clarity)
      rw [sumScores_eq_sum_get] at hle
      simp only [maxOf] at hc ho hp hcl
      linarith
    · have hlt : (runPass { s := s, bonus := 1 } (sortBy (cmpLe s) dims)).bonus < 1 :=
        lt_of_le_of_ne hble1 h1
      have := halfInt_pos_ge (halfInt_sub halfInt_one hbwf1.bhalf) (by linarith)
      linarith
  by_cases hpos : 0 < (runPass { s := s, bonus := 1 } (sortBy (cmpLe s) dims)).bonus
  · have hbwf2 : BWf (runPass (runPass { s := s, bonus := 1 } (sortBy (cmpLe s) dims))
        (sortBy (cmpLe s) dims)) := runPass_bwf hbwf1 _
    have hsum2 := runPass_sum hbwf1 (sortBy (cmpLe s) dims)
    have hble2 := runPass_bonus_le hbwf1 (sortBy (cmpLe s) dims)
    have happ : applyBonus s = (runPass (runPass { s := s, bonus := 1 } (sortBy (cmpLe s) dims))
        (sortBy (cmpLe s) dims)).s := by
      simp only [applyBonus, if_pos hpos]
    refine ⟨(runPass (runPass { s := s, bonus := 1 } (sortBy (cmpLe s) dims))
        (sortBy (cmpLe s) dims)).bonus, hbwf2.bpos, le_trans hble2 hble1, ?_, fun hle => le_trans hble2 (hb1half hle)⟩
    rw [happ]
    linarith
  · have happ : applyBonus s = (runPass { s := s, bonus := 1 } (sortBy (cmpLe s) dims)).s := by
      simp only [applyBonus, if_neg hpos]
    refine ⟨(runPass { s := s, bonus := 1 } (sortBy (cmpLe s) dims)).bonus, hbwf1.bpos, hble1, ?_, fun hle => hb1half hle⟩
    rw [happ]
    linarith

theorem applyBonus_swf {s : Scores} (h : SWf s) : SWf (applyBonus s) := by
  have hbwf1 : BWf (runPass { s := s, bonus := 1 } (sortBy (cmpLe s) dims)) :=
    runPass_bwf (swf_bwf_init h) _
  by_cases hpos : 0 < (runPass { s := s, bonus := 1 } (sortBy (cmpLe s) dims)).bonus
  · have happ : applyBonus s = (runPass (runPass { s := s, bonus := 1 } (sortBy (cmpLe s) dims))
        (sortBy (cmpLe s) dims)).s := by
      simp only [applyBonus, if_pos hpos]
    rw [happ]
    exact (runPass_bwf hbwf1 _).swf
  · have happ : applyBonus s = (runPass { s := s, bonus := 1 } (sortBy (cmpLe s) dims)).s := by
      simp only [applyBonus, if_neg hpos]
    rw [happ]
    exact hbwf1.swf

theorem applyBonus_ge {s : Scores} (h : SWf s) (d : Dim) :
    s.get d ≤ (applyBonus s).get d := by
  have hbwf1 : BWf (runPass { s := s, bonus := 1 } (sortBy (cmpLe s) dims)) :=
    runPass_bwf (swf_bwf_init h) _
  have h1 : s.get d ≤ (runPass { s := s, bonus := 1 } (sortBy (cmpLe s) dims)).s.get d :=
    runPass_get_ge (swf_bwf_init h) _ d
  by_cases hpos : 0 < (runPass { s := s, bonus := 1 } (sortBy (cmpLe s) dims)).bonus
  · have happ : applyBonus s = (runPass (runPass { s := s, bonus := 1 } (sortBy (cmpLe s) dims))
        (sortBy (cmpLe s) dims)).s := by
      simp only [applyBonus, if_pos hpos]
    rw [happ]
    exact le_trans h1 (runPass_get_ge hbwf1 _ d)
  · have happ : applyBonus s = (runPass { s := s, bonus := 1 } (sortBy (cmpLe s) dims)).s := by
      simp only [applyBonus, if_neg hpos]
    rw [happ]
    exact h1

/-- Each single pass raises a dimension by at most one half point. -/
theorem onePass_get_le {s : Scores} (h : SWf s) (d : Dim) :
    (runPass { s := s, bonus := 1 } (sortBy (cmpLe s) dims)).s.get d ≤ s.get d + 1 / 2 :=
  runPass_get_le (swf_bwf_init h) (order_nodup s) d

/-- Across the (at most two) passes a dimension gains at most one point. -/
theorem applyBonus_le_add_one {s : Scores} (h : SWf s) (d : Dim) :
    (applyBonus s).get d ≤ s.get d + 1 := by
  have hbwf1 : BWf (runPass { s := s, bonus := 1 } (sortBy (cmpLe s) dims)) :=
    runPass_bwf (swf_bwf_init h) _
  have h1 := onePass_get_le h d
  by_cases hpos : 0 < (runPass { s := s, bonus := 1 } (sortBy (cmpLe s) dims)).bonus
  · have happ : applyBonus s = (runPass (runPass { s := s, bonus := 1 } (sortBy (cmpLe s) dims))
        (sortBy (cmpLe s) dims)).s := by
      simp only [applyBonus, if_pos hpos]
    rw [happ]
    have h2 := runPass_get_le hbwf1 (order_nodup s) d
    linarith
  · have happ : applyBonus s = (runPass { s := s, bonus := 1 } (sortBy (cmpLe s) dims)).s := by
      simp only [applyBonus, if_neg hpos]
    rw [happ]
    linarith

/-- With every dimension at its maximum nothing is distributed. -/
theorem applyBonus_all_maxed {s : Scores} (hm : ∀ d, s.get d = maxOf d) :
    applyBonus s = s := by
  have hstep : ∀ d, passStep { s := s, bonus := 1 } d = { s := s, bonus := 1 } := by
    intro d
    have h0 : maxOf d - s.get d = 0 := by rw [hm d]; ring
    have hr0 : roundHalfQ (0 : ℚ) = 0 := roundHalfQ_eq_self halfInt_zero
    have hmin : min (min (roundHalfQ (maxOf d - Scores.get s d)) (1 : ℚ)) (1 / 2 : ℚ) = 0 := by
      rw [show maxOf d - Scores.get s d = 0 from h0, hr0]
      norm_num [min_def]
    simp only [passStep]
    rw [if_neg (by norm_num : ¬ (1 : ℚ) ≤ 0)]
    rw [if_neg (by rw [hmin]; norm_num)]
  have h1 : runPass { s := s, bonus := 1 } (sortBy (cmpLe s) dims) = { s := s, bonus := 1 } :=
    runPass_fixed_point hstep _
  simp only [applyBonus, h1]
  norm_num

theorem normOne_some {v : JVal} {m x : ℚ} (hm : HalfInt m) (hm0 : 0 ≤ m)
    (h : normOne v m = some x) : HalfInt x ∧ 0 ≤ x ∧ x ≤ m := by
  unfold normOne at h
  rcases hc : coerceScore v with _ | q
  · rw [hc] at h
    simp at h
  · rw [hc] at h
    simp only [Option.map_some', Option.some.injEq] at h
    subst h
    exact ⟨halfInt_roundHalfQ _, roundHalfQ_nonneg (clampQ_nonneg q m),
      roundHalfQ_le hm (clampQ_le hm0)⟩

theorem swf_of_normOne {c o p cl : ℚ}
    (hc : HalfInt c ∧ 0 ≤ c ∧ c ≤ 4) (ho : HalfInt o ∧ 0 ≤ o ∧ o ≤ 3)
    (hp : HalfInt p ∧ 0 ≤ p ∧ p ≤ 5) (hcl : HalfInt cl ∧ 0 ≤ cl ∧ cl ≤ 3) :
    SWf ⟨c, o, p, cl⟩ := by
  refine ⟨fun d => ?_, fun d => ?_, fun d => ?_⟩ <;> cases d <;>
    simp only [Scores.get, maxOf] <;> tauto

/-- C2: for every raw sub-score input and critical count, the total the
normalizer returns equals the exact (NaN-propagating) sum of the four
returned sub-scores, both when the conditional bonus is applied and when it
is not. -/
theorem c2_total_eq_sum (raw : RawSubScores) (k : ℕ) :
    (gradeNormalize raw k).total =
      addN (addN (addN (gradeNormalize raw k).content
        (gradeNormalize raw k).organization)
        (gradeNormalize raw k).proficiency)
        (gradeNormalize raw k).clarity := by
  unfold gradeNormalize
  cases hc : normOne raw.content 4 <;>
    cases ho : normOne raw.organization 3 <;>
      cases hp : normOne raw.proficiency 5 <;>
        cases hcl : normOne raw.clarity 3
  all_goals try rfl
  rename_i c o p cl
  have hcs := normOne_some ⟨8, by norm_num⟩ (by norm_num) hc
  have hos := normOne_some ⟨6, by norm_num⟩ (by norm_num) ho
  have hps := normOne_some ⟨10, by norm_num⟩ (by norm_num) hp
  have hcls := normOne_some ⟨6, by norm_num⟩ (by norm_num) hcl
  by_cases hcond : 6 ≤ roundHalfQ (c + o + p + cl) ∧ roundHalfQ (c + o + p + cl) ≤ 14 ∧ k ≤ 2
  · have hswf : SWf ⟨c, o, p, cl⟩ := swf_of_normOne hcs hos hps hcls
    have hs2 := applyBonus_swf hswf
    have hsum_half : HalfInt (sumScores (applyBonus ⟨c, o, p, cl⟩)) := by
      rw [sumScores_eq_sum_get]
      exact halfInt_add (halfInt_add (halfInt_add (hs2.half .content)
        (hs2.half .organization)) (hs2.half .proficiency)) (hs2.half .clarity)
    simp only [gradeCombine, if_pos hcond, addN]
    rw [roundHalfQ_eq_self hsum_half]
    rfl
  · simp only [gradeCombine, if_neg hcond, addN]
    rw [roundHalfQ_eq_self (halfInt_add (halfInt_add (halfInt_add hcs.1 hos.1) hps.1) hcls.1)]

theorem addN_some_inv {x y : Option ℚ} {z : ℚ} (h : addN x y = some z) :
    ∃ a b, x = some a ∧ y = some b ∧ z = a + b := by
  cases x with
  | none => simp [addN] at h
  | some a =>
    cases y with
    | none => simp [addN] at h
    | some b =>
      simp only [addN, Option.some.injEq] at h
      exact ⟨a, b, rfl, rfl, h.symm⟩

/-- C4: the bonus fires exactly on the condition `6 ≤ total ≤ 14` and
`criticalCount ≤ 2` read off the post-clamping total: under the condition
the returned total strictly exceeds the pre-bonus total by between 0.5 and
1.0 (so the bonus is applied, and applied once, capped at one point); off
the condition the result is exactly the pre-bonus result.  At sub-scores
(2, 2, 2, 2) (total 8): with 0 critical issues the total becomes 9, with 3
critical issues it stays 8. -/
theorem c4_bonus_condition (raw : RawSubScores) (k : ℕ) (pt t : ℚ)
    (hpt : (preNorm raw).total = some pt)
    (ht : (gradeNormalize raw k).total = some t) :
    ((6 ≤ pt ∧ pt ≤ 14 ∧ k ≤ 2) → pt + 1 / 2 ≤ t ∧ t ≤ pt + 1) ∧
    (¬(6 ≤ pt ∧ pt ≤ 14 ∧ k ≤ 2) → t = pt ∧ gradeNormalize raw k = preNorm raw) ∧
    (gradeNormalize ⟨.num 2, .num 2, .num 2, .num 2⟩ 0).total = some 9 ∧
    (gradeNormalize ⟨.num 2, .num 2, .num 2, .num 2⟩ 3).total = some 8 := by
  have hconc1 : (gradeNormalize ⟨.num 2, .num 2, .num 2, .num 2⟩ 0).total = some 9 := by
    norm_num [gradeNormalize, gradeCombine, normOne, coerceScore, clampQ, roundHalfQ,
      applyBonus, runPass, passStep, sortBy, insertBy, cmpLe, prefR, roomOf, maxOf, dims,
      Scores.get, Scores.set, sumScores, round_eq]
  have hconc2 : (gradeNormalize ⟨.num 2, .num 2, .num 2, .num 2⟩ 3).total = some 8 := by
    norm_num [gradeNormalize, gradeCombine, normOne, coerceScore, clampQ, roundHalfQ,
      applyBonus, runPass, passStep, sortBy, insertBy, cmpLe, prefR, roomOf, maxOf, dims,
      Scores.get, Scores.set, sumScores, round_eq]
  simp only [preNorm] at hpt
  rcases Option.map_eq_some'.mp hpt with ⟨u, hu, hptu⟩
  rcases addN_some_inv hu with ⟨v, cl, hv, hcl, rfl⟩
  rcases addN_some_inv hv with ⟨w, p, hw, hp, rfl⟩
  rcases addN_some_inv hw with ⟨c, o, hc, ho, rfl⟩
  have hcs := normOne_some ⟨8, by norm_num⟩ (by norm_num) hc
  have hos := normOne_some ⟨6, by norm_num⟩ (by norm_num) ho
  have hps := normOne_some ⟨10, by norm_num⟩ (by norm_num) hp
  have hcls := normOne_some ⟨6, by norm_num⟩ (by norm_num) hcl
  have hswf : SWf ⟨c, o, p, cl⟩ := swf_of_normOne hcs hos hps hcls
  have hpt_eq : roundHalfQ (c + o + p + cl) = pt := by
    rw [← hptu]
  have hpt_val : pt = c + o + p + cl := by
    rw [← hpt_eq,
      roundHalfQ_eq_self (halfInt_add (halfInt_add (halfInt_add hcs.1 hos.1) hps.1) hcls.1)]
  unfold gradeNormalize at ht
  rw [hc, ho, hp, hcl] at ht
  by_cases hcond : 6 ≤ pt ∧ pt ≤ 14 ∧ k ≤ 2
  · refine ⟨fun _ => ?_, fun hn => absurd hcond hn, hconc1, hconc2⟩
    have hcond2 : 6 ≤ roundHalfQ (c + o + p + cl) ∧ roundHalfQ (c + o + p + cl) ≤ 14 ∧ k ≤ 2 := by
      rw [hpt_eq]; exact hcond
    simp only [gradeCombine, if_pos hcond2, Option.some.injEq] at ht
    have hs2 := applyBonus_swf hswf
    have hsum_half : HalfInt (sumScores (applyBonus ⟨c, o, p, cl⟩)) := by
      rw [sumScores_eq_sum_get]
      exact halfInt_add (halfInt_add (halfInt_add (hs2.half .content)
        (hs2.half .organization)) (hs2.half .proficiency)) (hs2.half .clarity)
    rw [roundHalfQ_eq_self hsum_half] at ht
    rcases applyBonus_total hswf with ⟨b2, hb2lo, hb2hi, hsum, hhead⟩
    have hsum0 : sumScores ⟨c, o, p, cl⟩ = c + o + p + cl := rfl
    rw [hsum0] at hsum
    have hhr : b2 ≤ 1 / 2 := hhead (by rw [hsum0]; linarith [hcond.2.1, hpt_val])
    constructor
    · rw [← ht, hsum, ← hpt_val]
      linarith
    · rw [← ht, hsum, ← hpt_val]
      linarith
  · have hcond2 : ¬(6 ≤ roundHalfQ (c + o + p + cl) ∧ roundHalfQ (c + o + p + cl) ≤ 14 ∧ k ≤ 2) := by
      rw [hpt_eq]; exact hcond
    refine ⟨fun hy => absurd hy hcond, fun _ => ?_, hconc1, hconc2⟩
    simp only [gradeCombine, if_neg hcond2, Option.some.injEq] at ht
    constructor
    · rw [← ht, hpt_eq]
    · unfold gradeNormalize
      rw [hc, ho, hp, hcl]
      simp only [gradeCombine, if_neg hcond2, preNorm]
      rw [hc, ho, hp, hcl]
      simp only [addN, Option.map_some']

/-- Witness for C4 at sub-scores (2, 2, 2, 2) with 0 critical issues:
pre-bonus total 8, returned total 9. -/
theorem c4_bonus_condition_witness :
    ((6 ≤ (8 : ℚ) ∧ (8 : ℚ) ≤ 14 ∧ (0 : ℕ) ≤ 2) → (8 : ℚ) + 1 / 2 ≤ 9 ∧ (9 : ℚ) ≤ 8 + 1) ∧
    (¬(6 ≤ (8 : ℚ) ∧ (8 : ℚ) ≤ 14 ∧ (0 : ℕ) ≤ 2) → (9 : ℚ) = 8 ∧
      gradeNormalize ⟨.num 2, .num 2, .num 2, .num 2⟩ 0 = preNorm ⟨.num 2, .num 2, .num 2, .num 2⟩) ∧
    (gradeNormalize ⟨.num 2, .num 2, .num 2, .num 2⟩ 0).total = some 9 ∧
    (gradeNormalize ⟨.num 2, .num 2, .num 2, .num 2⟩ 3).total = some 8 :=
  c4_bonus_condition ⟨.num 2, .num 2, .num 2, .num 2⟩ 0 8 9
    (by norm_num [preNorm, normOne, coerceScore, clampQ, roundHalfQ, addN, round_eq])
    (by norm_num [gradeNormalize, gradeCombine, normOne, coerceScore, clampQ, roundHalfQ,
      applyBonus, runPass, passStep, sortBy, insertBy, cmpLe, prefR, roomOf, maxOf, dims,
      Scores.get, Scores.set, sumScores, round_eq])

/-- C3 counterexample: at rounded sub-scores (4, 3, 3.5, 3) with no
critical issues (total 13.5, bonus condition holds) the loop runs twice and
the proficiency dimension receives 0.5 in each pass: it rises from 3.5 to
4.5, contradicting the claimed 0.5 cap per dimension. -/
theorem c3_cex_dimension_gains_one :
    (gradeNormalize ⟨.num 4, .num 3, .num (7 / 2), .num 3⟩ 0).proficiency = some (9 / 2) ∧
    (preNorm ⟨.num 4, .num 3, .num (7 / 2), .num 3⟩).proficiency = some (7 / 2) ∧
    ¬((9 / 2 : ℚ) ≤ 7 / 2 + 1 / 2) := by
  refine ⟨?_, ?_, by norm_num⟩
  · norm_num [gradeNormalize, gradeCombine, normOne, coerceScore, clampQ, roundHalfQ,
      applyBonus, runPass, passStep, sortBy, insertBy, cmpLe, prefR, roomOf, maxOf, dims,
      Scores.get, Scores.set, sumScores, round_eq]
  · norm_num [preNorm, normOne, coerceScore, clampQ, roundHalfQ, addN, round_eq]

/-- C3 (amended): the bonus runs in at most two passes over the same
order; within one pass a dimension gains at most 0.5, so across the whole
bonus a dimension gains at most 1.0 (0.5 per pass, and 1.0 is attainable:
see the counterexample); no dimension is pushed above its maximum and none
is lowered; the order is a permutation of the four dimensions sorted by
the comparator (most remaining headroom first, ties by lowest current
score); if all four dimensions are at their maxima the scores are returned
unchanged. -/
theorem c3_amended_bonus_distribution (s : Scores) (h : SWf s) :
    (∀ d, (applyBonus s).get d ≤ maxOf d) ∧
    (∀ d, s.get d ≤ (applyBonus s).get d) ∧
    (∀ d, (runPass { s := s, bonus := 1 } (sortBy (cmpLe s) dims)).s.get d ≤ s.get d + 1 / 2) ∧
    (∀ d, (applyBonus s).get d ≤ s.get d + 1) ∧
    ((∀ d, s.get d = maxOf d) → applyBonus s = s) ∧
    List.Perm (sortBy (cmpLe s) dims) dims ∧
    List.Pairwise (fun a b => prefR s a b) (sortBy (cmpLe s) dims) := by
  refine ⟨(applyBonus_swf h).hi, applyBonus_ge h, onePass_get_le h,
    applyBonus_le_add_one h, applyBonus_all_maxed, sortBy_perm _ _, ?_⟩
  exact (sortBy_pairwise (cmpLe_total s) (cmpLe_trans s) dims).imp
    (fun hab => of_decide_eq_true hab)

/-- Witness for C3's amended theorem at sub-scores (2, 2, 2, 2). -/
theorem c3_amended_witness :
    (applyBonus ⟨2, 2, 2, 2⟩).get Dim.proficiency ≤ maxOf Dim.proficiency :=
  (c3_amended_bonus_distribution ⟨2, 2, 2, 2⟩
    ⟨fun d => ⟨4, by cases d <;> norm_num [Scores.get]⟩,
     fun d => by cases d <;> norm_num [Scores.get],
     fun d => by cases d <;> norm_num [Scores.get, maxOf]⟩).1 Dim.proficiency

/-- C1 (the code at the failing input): with the non-numeric string "N/A"
as `subScores.organization`, `Number("N/A" || 0)` is NaN, the clamp
(`Math.max`/`Math.min`) passes NaN through, and the returned organization
sub-score is NaN (`none`) - not a value of `[0, 3]` and not a multiple of
0.5; the claimed range property fails on the code. -/
theorem c1_nan_escapes_range :
    (gradeNormalize ⟨.num 2, .str ['N', '/', 'A'], .num 2, .num 2⟩ 0).organization = none ∧
    (gradeNormalize ⟨.num 2, .str ['N', '/', 'A'], .num 2, .num 2⟩ 0).total = none := by
  decide

/-- C5 (the code at the failing input): a missing sub-score is coerced to
0 as claimed, but the non-numeric string "abc" is coerced to NaN (`none`),
not 0, and the NaN reaches the returned result. -/
theorem c5_nonnumeric_not_zero :
    coerceScore .missing = some 0 ∧
    coerceScore (.str ['a', 'b', 'c']) = none ∧
    (gradeNormalize ⟨.str ['a', 'b', 'c'], .num 2, .num 2, .num 2⟩ 0).content = none := by
  decide

set_option maxRecDepth 40000 in
/-- C7: the truncation repairer closes the unterminated string and the
unclosed object of the first input, and drops the trailing comma and
closes array and object of the second; both outputs parse to the claimed
objects. -/
theorem c7_repair_examples :
    jsonParse (tryRepairTruncatedJson
        ['{', '"', 'a', '"', ':', ' ', '"', 'h', 'e', 'l', 'l', 'o']) =
      some (J.jobj [(['a'], J.jstr ['h', 'e', 'l', 'l', 'o'])]) ∧
    jsonParse (tryRepairTruncatedJson
        ['{', '"', 'a', '"', ':', ' ', '1', ',', ' ', '"', 'b', '"', ':', ' ',
         '[', '1', ',', ' ', '2', ',']) =
      some (J.jobj [(['a'], J.jnum 1), (['b'], J.jarr [J.jnum 1, J.jnum 2])]) := by
  constructor
  · rfl
  · with_unfolding_all rfl

/-- Case reduction of the shared parse attempt of `cleanJsonResponseE`
and `cleanJsonResponse`. -/
theorem c9_match_helper (x : Except Unit J) (a b : List Char) :
    (match x with
      | Except.ok _ => Except.ok a
      | Except.error _ => Except.ok b) =
      ((Except.ok (if (match x with
          | Except.ok _ => true
          | Except.error _ => false) = true then a else b)) : Except Unit (List Char)) := by
  cases x <;> rfl

/-- C9: `cleanJsonResponse` with its `try { JSON.parse } catch` made
explicit always returns `.ok` of a string: the parse attempt is the only
fallible step and both branches return normally, so the sanitizer never
throws. -/
theorem c9_never_throws (l : List Char) :
    cleanJsonResponseE l = Except.ok (cleanJsonResponse l) := by
  simp only [cleanJsonResponseE, cleanJsonResponse, jsonValid]
  exact c9_match_helper (jsonParseE (sanitizePipeline l)) (sanitizePipeline l)
    (tryRepairTruncatedJson (sanitizePipeline l))

theorem keepBeforeSuffix_some {p : List Char → Bool} {l pre : List Char}
    (h : keepBeforeSuffix p l = some pre) :
    ∃ suf, l = pre ++ suf ∧ p suf = true ∧ suf ≠ [] := by
  induction l generalizing pre with
  | nil => simp [keepBeforeSuffix] at h
  | cons c r ih =>
    unfold keepBeforeSuffix at h
    by_cases hp : p (c :: r)
    · rw [if_pos hp] at h
      simp only [Option.some.injEq] at h
      subst h
      exact ⟨c :: r, rfl, hp, by simp⟩
    · rw [if_neg hp] at h
      rcases hmap : keepBeforeSuffix p r with _ | pre2
      · rw [hmap] at h
        simp at h
      · rw [hmap] at h
        simp only [Option.map_some', Option.some.injEq] at h
        subst h
        rcases ih hmap with ⟨suf, heq, hps, hne⟩
        exact ⟨suf, by rw [heq]; rfl, hps, hne⟩

theorem removeDangling_cases (l : List Char) :
    removeDangling l = l ∨
      ∃ pre suf, l = pre ++ suf ∧ suf ≠ [] ∧ removeDangling l = pre := by
  unfold removeDangling
  rcases h : keepBeforeSuffix danglingMatch l with _ | pre
  · left; rfl
  · right
    rcases keepBeforeSuffix_some h with ⟨suf, heq, _, hne⟩
    exact ⟨pre, suf, heq, hne, rfl⟩

theorem removeTrailingComma_cases (l : List Char) :
    removeTrailingComma l = l ∨
      ∃ pre suf, l = pre ++ suf ∧ suf ≠ [] ∧ removeTrailingComma l = pre := by
  unfold removeTrailingComma
  rcases h : keepBeforeSuffix trailingCommaMatch l with _ | pre
  · left; rfl
  · right
    rcases keepBeforeSuffix_some h with ⟨suf, heq, _, hne⟩
    exact ⟨pre, suf, heq, hne, rfl⟩

theorem suffix_drop_chain {r m out : List Char}
    (h1 : m = r ∨ ∃ pre suf, r = pre ++ suf ∧ suf ≠ [] ∧ m = pre)
    (h2 : out = m ∨ ∃ pre suf, m = pre ++ suf ∧ suf ≠ [] ∧ out = pre) :
    out = r ∨ ∃ pre suf, r = pre ++ suf ∧ suf ≠ [] ∧ out = pre := by
  rcases h1 with h1 | ⟨p1, s1, hr, hne1, hm⟩
  · rcases h2 with h2 | ⟨p2, s2, hm2, hne2, ho⟩
    · left; rw [h2, h1]
    · right; exact ⟨p2, s2, by rw [← h1, hm2], hne2, ho⟩
  · rcases h2 with h2 | ⟨p2, s2, hm2, hne2, ho⟩
    · right; exact ⟨p1, s1, hr, hne1, by rw [h2, hm]⟩
    · right
      refine ⟨p2, s2 ++ s1, ?_, by simp [hne2], ho⟩
      rw [hr, ← hm, hm2, List.append_assoc]

theorem stackStep_closers {stk : List Char} {b1 b2 : Bool} (ch : Char)
    (hst : ∀ c ∈ stk, isCloser c = true) :
    ∀ c ∈ (stackStep (stk, b1, b2) ch).1, isCloser c = true := by
  unfold stackStep
  split_ifs with h1 h2 h3 h4 h5 h6 h7
  · exact hst
  · exact hst
  · exact hst
  · exact hst
  · intro c hc
    rcases List.mem_cons.mp hc with rfl | hc2
    · rfl
    · exact hst c hc2
  · intro c hc
    rcases List.mem_cons.mp hc with rfl | hc2
    · rfl
    · exact hst c hc2
  · cases stk with
    | nil => exact hst
    | cons t rest =>
      by_cases hts : t = ch
      · intro c hc
        refine hst c (List.mem_cons_of_mem t ?_)
        simpa [hts] using hc
      · intro c hc
        refine hst c ?_
        simpa [hts] using hc
  · exact hst

theorem stackScan_closers (l : List Char) {st : List Char × Bool × Bool}
    (hst : ∀ c ∈ st.1, isCloser c = true) :
    ∀ c ∈ (l.foldl stackStep st).1, isCloser c = true := by
  induction l generalizing st with
  | nil => exact hst
  | cons ch r ih =>
    obtain ⟨stk, b1, b2⟩ := st
    exact ih (stackStep_closers ch hst)

/-- C10: for every input, the repairer's output is a prefix of the input
(characters kept unchanged, in place) followed only by appended closing
characters drawn from `"`, `}` and `]`; nothing interior is modified or
inserted. -/
theorem c10_repair_appends_only (l : List Char) :
    ∃ n rest, tryRepairTruncatedJson l = l.take n ++ rest ∧ rest.all isCloser = true := by
  have hclose : ∀ r3 : List Char,
      ((r3.foldl stackStep ([], false, false)).1).all isCloser = true := by
    intro r3
    rw [List.all_eq_true]
    exact stackScan_closers r3 (by simp)
  by_cases hq : quoteScan l
  · have hrep : tryRepairTruncatedJson l =
        removeTrailingComma (removeDangling (l ++ ['"'])) ++
          ((removeTrailingComma (removeDangling (l ++ ['"']))).foldl stackStep
            ([], false, false)).1 := by
      simp only [tryRepairTruncatedJson, if_pos hq]
    rw [hrep]
    rcases suffix_drop_chain (removeDangling_cases (l ++ ['"']))
        (removeTrailingComma_cases (removeDangling (l ++ ['"'])))
      with heq | ⟨pre, suf, hsplit, hne, hout⟩
    · rw [heq]
      refine ⟨l.length, '"' :: (((l ++ ['"']).foldl stackStep ([], false, false)).1), ?_, ?_⟩
      · rw [List.take_length, List.append_assoc, List.singleton_append]
      · simp only [List.all_cons, Bool.and_eq_true]
        exact ⟨by decide, hclose (l ++ ['"'])⟩
    · rw [hout]
      have hs1 : 1 ≤ suf.length := List.length_pos.mpr hne
      have hlen : pre.length ≤ l.length := by
        have := congrArg List.length hsplit
        simp only [List.length_append, List.length_cons, List.length_nil] at this
        omega
      have hpre : l.take pre.length = pre := by
        have h2 : (l ++ ['"']).take pre.length = l.take pre.length :=
          List.take_append_of_le_length hlen
        rw [← h2, hsplit, List.take_left]
      exact ⟨pre.length, (pre.foldl stackStep ([], false, false)).1, by rw [hpre], hclose pre⟩
  · have hrep : tryRepairTruncatedJson l =
        removeTrailingComma (removeDangling l) ++
          ((removeTrailingComma (removeDangling l)).foldl stackStep ([], false, false)).1 := by
      simp only [tryRepairTruncatedJson, if_neg hq]
    rw [hrep]
    rcases suffix_drop_chain (removeDangling_cases l)
        (removeTrailingComma_cases (removeDangling l))
      with heq | ⟨pre, suf, hsplit, hne, hout⟩
    · rw [heq]
      exact ⟨l.length, ((l.foldl stackStep ([], false, false)).1),
        by rw [List.take_length], hclose l⟩
    · rw [hout]
      have hpre : l.take pre.length = pre := by
        rw [hsplit, List.take_left]
      exact ⟨pre.length, (pre.foldl stackStep ([], false, false)).1, by rw [hpre], hclose pre⟩

theorem dropWhile_eq_self_of_head {l : List Char} {p : Char → Bool}
    (h : ∀ c, l.head? = some c → p c = false) : l.dropWhile p = l := by
  cases l with
  | nil => rfl
  | cons c r =>
    rw [List.dropWhile_cons, if_neg]
    rw [h c rfl]
    simp

theorem jsTrim_eq_self {l : List Char}
    (hh : ∀ c, l.head? = some c → isWs c = false)
    (hl : ∀ c, l.getLast? = some c → isWs c = false) : jsTrim l = l := by
  unfold jsTrim
  rw [dropWhile_eq_self_of_head hh]
  rw [dropWhile_eq_self_of_head (fun c hc => hl c (by rwa [List.head?_reverse] at hc))]
  exact List.reverse_reverse l

/-- C6 (amended): the sanitizer returns a valid JSON string unchanged
provided it carries no leading or trailing whitespace (head and last are
the enclosing braces or brackets), begins with `{` or `[`, ends with `}`
or `]`, and the fence regex does not match in it (no two backtick runs).
On other valid JSON inputs it can rewrite the text: see the
counterexample. -/
theorem c6_amended_identity (l : List Char)
    (hvalid : jsonValid l = true)
    (hhead : l.head? = some '{' ∨ l.head? = some '[')
    (hlast : l.getLast? = some '}' ∨ l.getLast? = some ']')
    (hfence : fenceInterior l = none) :
    cleanJsonResponse l = l := by
  have htrim : jsTrim l = l := by
    refine jsTrim_eq_self (fun c hc => ?_) (fun c hc => ?_)
    · rcases hhead with h | h <;> rw [hc] at h <;>
        simp only [Option.some.injEq] at h <;> subst h <;> rfl
    · rcases hlast with h | h <;> rw [hc] at h <;>
        simp only [Option.some.injEq] at h <;> subst h <;> rfl
  have hpipe : sanitizePipeline l = l := by
    simp only [sanitizePipeline, htrim, hfence]
    rw [if_pos hhead, if_pos hlast]
  simp only [cleanJsonResponse, hpipe, hvalid]
  simp

/-- Witness for C6's amended theorem at the two-character object string. -/
theorem c6_amended_identity_witness :
    cleanJsonResponse ['{', '}'] = ['{', '}'] :=
  c6_amended_identity ['{', '}'] (by decide) (Or.inl rfl) (Or.inl rfl) rfl

/-- C6 counterexample: a valid JSON string with a leading space is
trimmed, so it is not returned unchanged. -/
theorem c6_cex_whitespace :
    jsonValid [' ', '{', '}'] = true ∧
    cleanJsonResponse [' ', '{', '}'] = ['{', '}'] ∧
    cleanJsonResponse [' ', '{', '}'] ≠ [' ', '{', '}'] := by
  refine ⟨by decide, by decide, by decide⟩

theorem hasTriple_cons_false {c : Char} {l : List Char}
    (h : hasTriple (c :: l) = false) : hasTriple l = false := by
  cases l with
  | nil => rfl
  | cons b r =>
    cases r with
    | nil => rfl
    | cons d r2 =>
      unfold hasTriple at h
      split_ifs at h with hc
      exact h

theorem startsTicks_append_false {r : List Char} (h : hasTriple r = false) :
    startsTicks (r ++ ['\n', '`', '`', '`']) = false := by
  match r, h with
  | [], _ => rfl
  | [b], _ => simp [startsTicks, List.take]
  | [b, d], _ => simp [startsTicks, List.take]
  | b :: d :: e :: r4, h =>
    unfold hasTriple at h
    split_ifs at h with hc
    simp only [startsTicks, List.cons_append, decide_eq_false_iff_not]
    intro hx
    apply hc
    simp only [List.take, List.cons.injEq] at hx
    tauto

theorem closeScan_append {J : List Char} (h : hasTriple J = false) :
    closeScan (J ++ ['\n', '`', '`', '`']) = some J := by
  induction J with
  | nil => rfl
  | cons c r ih =>
    have hr : hasTriple r = false := hasTriple_cons_false h
    have hticks := startsTicks_append_false h
    rw [List.cons_append] at hticks
    rw [List.cons_append]
    unfold closeScan
    rw [if_neg (by simp [hticks]), if_neg (by simp [startsTicks_append_false hr]),
      ih hr]
    rfl

theorem getLast?_append_quad (x : List Char) :
    (x ++ ['\n', '`', '`', '`']).getLast? = some '`' := by
  rw [List.getLast?_append]
  rfl

/-- The fence regex on the wrapped form: the leftmost backtick run opens at
position 0, the optional `json` tag and the greedy whitespace consume the
header, and the lazy interior stops at the closing run, excluding the
newline before it. -/
theorem fenceInterior_wrapped (tag J : List Char)
    (htag : tag = ['j', 's', 'o', 'n'] ∨ tag = [])
    (hJ : hasTriple J = false)
    (hhead : J.head? = some '{' ∨ J.head? = some '[') :
    fenceInterior (['`', '`', '`'] ++ (tag ++ ('\n' :: (J ++ ['\n', '`', '`', '`'])))) =
      some J := by
  have hdropJ : (J ++ ['\n', '`', '`', '`']).dropWhile isWs = J ++ ['\n', '`', '`', '`'] := by
    apply dropWhile_eq_self_of_head
    intro c hc
    rcases hhead with h | h <;>
      · cases J with
        | nil => simp at h
        | cons j0 J2 =>
          simp only [List.head?_cons, Option.some.injEq] at h
          rw [List.cons_append, List.head?_cons, Option.some.injEq] at hc
          subst h
          rw [← hc]
          rfl
  rcases htag with rfl | rfl
  · show closeScan ((J ++ ['\n', '`', '`', '`']).dropWhile isWs) = some J
    rw [hdropJ]
    exact closeScan_append hJ
  · show closeScan ((J ++ ['\n', '`', '`', '`']).dropWhile isWs) = some J
    rw [hdropJ]
    exact closeScan_append hJ

set_option maxRecDepth 40000 in
/-- C8 (amended): the sanitizer returns exactly the fenced interior - and
that interior parses - for every fenced input (triple backticks, optional
`json` tag, newline-separated) whose interior is valid JSON, contains no
backtick run, begins with `{` or `[` and ends with `}` or `]`; interiors
with backtick runs or other top-level forms can be rewritten (see the
counterexample).  In particular the claimed concrete case holds. -/
theorem c8_amended_fence_extraction (tag J : List Char)
    (htag : tag = ['j', 's', 'o', 'n'] ∨ tag = [])
    (hvalid : jsonValid J = true)
    (hhead : J.head? = some '{' ∨ J.head? = some '[')
    (hlast : J.getLast? = some '}' ∨ J.getLast? = some ']')
    (hJ : hasTriple J = false) :
    cleanJsonResponse (['`', '`', '`'] ++ (tag ++ ('\n' :: (J ++ ['\n', '`', '`', '`'])))) = J ∧
    cleanJsonResponse
        ['`', '`', '`', 'j', 's', 'o', 'n', '\n', '{', '"', 'x', '"', ':', '1', '}', '\n', '`', '`', '`'] =
      ['{', '"', 'x', '"', ':', '1', '}'] := by
  have hs_head : (['`', '`', '`'] ++ (tag ++ ('\n' :: (J ++ ['\n', '`', '`', '`'])))).head? = some '`' := rfl
  have hs_last : (['`', '`', '`'] ++ (tag ++ ('\n' :: (J ++ ['\n', '`', '`', '`'])))).getLast? = some '`' := by
    have h : (['`', '`', '`'] ++ (tag ++ ('\n' :: (J ++ ['\n', '`', '`', '`'])))) =
        ((['`', '`', '`'] ++ (tag ++ ('\n' :: J))) ++ ['\n', '`', '`', '`']) := by
      simp [List.append_assoc]
    rw [h, getLast?_append_quad]
  have htrim : jsTrim (['`', '`', '`'] ++ (tag ++ ('\n' :: (J ++ ['\n', '`', '`', '`'])))) =
      (['`', '`', '`'] ++ (tag ++ ('\n' :: (J ++ ['\n', '`', '`', '`'])))) :=
    jsTrim_eq_self
      (fun c hc => by rw [hs_head] at hc; injection hc with h2; rw [← h2]; rfl)
      (fun c hc => by rw [hs_last] at hc; injection hc with h2; rw [← h2]; rfl)
  have htrimJ : jsTrim J = J :=
    jsTrim_eq_self
      (fun c hc => by
        rcases hhead with h | h <;> rw [hc] at h <;> injection h with h2 <;> rw [h2] <;> rfl)
      (fun c hc => by
        rcases hlast with h | h <;> rw [hc] at h <;> injection h with h2 <;> rw [h2] <;> rfl)
  constructor
  · have hpipe : sanitizePipeline (['`', '`', '`'] ++ (tag ++ ('\n' :: (J ++ ['\n', '`', '`', '`'])))) = J := by
      simp only [sanitizePipeline, htrim, fenceInterior_wrapped tag J htag hJ hhead, htrimJ]
      rw [if_pos hhead, if_pos hlast]
    simp only [cleanJsonResponse, hpipe, hvalid]
    simp
  · with_unfolding_all rfl

/-- Witness for C8's amended theorem: a `json`-tagged fence around the
two-character object. -/
theorem c8_amended_fence_witness :
    cleanJsonResponse
        (['`', '`', '`'] ++ (['j', 's', 'o', 'n'] ++ ('\n' :: (['{', '}'] ++ ['\n', '`', '`', '`'])))) =
      ['{', '}'] :=
  (c8_amended_fence_extraction ['j', 's', 'o', 'n'] ['{', '}'] (Or.inl rfl) (by decide)
    (Or.inl rfl) (Or.inl rfl) rfl).1

/-- C8 counterexample: the fenced interior is the valid JSON string
literal with a brace inside; the sanitizer does not return it - the
brace-scanning step cuts into it and the repair appends quotes and a
brace - and the returned text does not parse. -/
theorem c8_cex_brace_in_string :
    jsonValid ['"', 'a', '{', 'b', '"'] = true ∧
    cleanJsonResponse
        (['`', '`', '`'] ++ (['j', 's', 'o', 'n'] ++ ('\n' :: (['"', 'a', '{', 'b', '"'] ++ ['\n', '`', '`', '`'])))) =
      ['{', 'b', '"', '"', '}'] ∧
    jsonValid ['{', 'b', '"', '"', '}'] = false := by
  refine ⟨by decide, by decide, by decide⟩
